import Mathlib

/-!
# ptcwatcher: path filters, command parsing, fail-fast runner, event coalescing

A shallow embedding of `cmd/ptcwatcher/main.go`.

* Go strings are byte sequences (`GoString`); a byte is a natural number below 256.
* The Go standard library functions the program calls (`utf8.DecodeRuneInString`,
  `filepath.Match` with its helpers `scanChunk`, `matchChunk`, `getEsc`, and
  `strings.Split`) are not part of the repository; they are modelled after the
  library, Unix path separator, Go 1.16 and later (the program calls
  `os.ReadFile`, which exists from Go 1.16 on). `filepath.Match` reads a
  pattern chunk by chunk and stops at the first chunk it cannot match: a
  syntax error in a later chunk is then not reported.
* `os.Getwd`, `filepath.Rel` and running a subprocess are inputs of the model
  (`Sys`, `Outcome`).
* Loops whose Go termination argument is "the string gets shorter" carry an
  explicit fuel argument; `none` means the fuel ran out, and the theorems show
  it never does with the fuel the wrappers supply.
-/

namespace Ptcwatcher

/-! ## Go strings -/

/-- A Go string: a finite sequence of bytes. -/
abbrev GoString := List Nat

/-- UTF-8 encoding of one code point (the encoding Go uses for string literals). -/
def encodeRune (r : Nat) : List Nat :=
  if r < 0x80 then [r]
  else if r < 0x800 then [0xC0 + r / 64, 0x80 + r % 64]
  else if r < 0x10000 then [0xE0 + r / 4096, 0x80 + (r / 64) % 64, 0x80 + r % 64]
  else [0xF0 + r / 262144, 0x80 + (r / 4096) % 64, 0x80 + (r / 64) % 64, 0x80 + r % 64]

/-- The Go string denoted by a string literal. -/
def str (s : String) : GoString :=
  s.data.flatMap (fun c => encodeRune c.toNat)

/-- The constant `utf8.RuneError`. -/
def RuneError : Nat := 0xFFFD

/-- The constant `filepath.Separator` on Unix, the byte of `/`. -/
def Separator : Nat := 0x2F

/-- A UTF-8 continuation byte (`locb` to `hicb` in package `utf8`). -/
def isCont (b : Nat) : Bool := decide (0x80 ≤ b) && decide (b ≤ 0xBF)

/-- Modelled from the spec: `utf8.DecodeRuneInString` of the Go standard library,
which `filepath.Match` uses to read one character of the path or pattern; the
library is not among the repository sources. Returns the rune and its width in
bytes; an invalid or short encoding yields `(RuneError, 1)`, the empty string
`(RuneError, 0)`. -/
def DecodeRuneInString (s : GoString) : Nat × Nat :=
  match s with
  | [] => (RuneError, 0)
  | s0 :: t =>
    if s0 < 0x80 then (s0, 1)
    else if 0xC2 ≤ s0 ∧ s0 ≤ 0xDF then
      match t with
      | s1 :: _ =>
        if isCont s1 then ((s0 % 32) * 64 + s1 % 64, 2) else (RuneError, 1)
      | [] => (RuneError, 1)
    else if 0xE0 ≤ s0 ∧ s0 ≤ 0xEF then
      match t with
      | s1 :: s2 :: _ =>
        if (if s0 = 0xE0 then 0xA0 else 0x80) ≤ s1 ∧ s1 ≤ (if s0 = 0xED then 0x9F else 0xBF)
            ∧ isCont s2 = true then
          ((s0 % 16) * 4096 + (s1 % 64) * 64 + s2 % 64, 3)
        else (RuneError, 1)
      | _ => (RuneError, 1)
    else if 0xF0 ≤ s0 ∧ s0 ≤ 0xF4 then
      match t with
      | s1 :: s2 :: s3 :: _ =>
        if (if s0 = 0xF0 then 0x90 else 0x80) ≤ s1 ∧ s1 ≤ (if s0 = 0xF4 then 0x8F else 0xBF)
            ∧ isCont s2 = true ∧ isCont s3 = true then
          ((s0 % 8) * 262144 + (s1 % 64) * 4096 + (s2 % 64) * 64 + s3 % 64, 4)
        else (RuneError, 1)
      | _ => (RuneError, 1)
    else (RuneError, 1)

/-! ## `filepath.Match` -/

/-- The only error of `filepath.Match`: `filepath.ErrBadPattern`. -/
inductive MatchError where
  | ErrBadPattern
  deriving DecidableEq, Repr

/-- Modelled from the spec: `getEsc` of Go's `path/filepath/match.go` (library
code, not among the repository sources): one possibly escaped character of a
character class, with the rest of the chunk. -/
def getEsc (chunk : GoString) : Except MatchError (Nat × GoString) :=
  match chunk with
  | [] => .error .ErrBadPattern
  | c :: rest =>
    if c = 0x2D ∨ c = 0x5D then .error .ErrBadPattern          -- '-' or ']'
    else
      let chunk1 := if c = 0x5C then rest else c :: rest         -- '\\'
      if chunk1 = [] then .error .ErrBadPattern
      else
        let rn := DecodeRuneInString chunk1
        if rn.1 = RuneError ∧ rn.2 = 1 then .error .ErrBadPattern
        else
          let nchunk := chunk1.drop rn.2
          if nchunk = [] then .error .ErrBadPattern
          else .ok (rn.1, nchunk)

/-- Modelled from the spec: the range loop of `matchChunk` (the `for` after
"parse all ranges" in Go's `path/filepath/match.go`): reads ranges up to the
closing bracket; yields the rest of the chunk and whether `r` is in a range. -/
def rangeLoop : Nat → GoString → Nat → Bool → Nat → Option (Except MatchError (GoString × Bool))
  | _, [], _, _, _ => some (.error .ErrBadPattern)             -- getEsc on the empty chunk
  | 0, _ :: _, _, _, _ => none
  | fuel + 1, c :: rest, r, matched, nrange =>
    if c = 0x5D ∧ 0 < nrange then some (.ok (rest, matched))    -- ']'
    else
      match getEsc (c :: rest) with
      | .error e => some (.error e)
      | .ok (lo, chunk1) =>
        if chunk1.head? = some 0x2D then                        -- '-'
          match getEsc chunk1.tail with
          | .error e => some (.error e)
          | .ok (hi, chunk2) =>
            rangeLoop fuel chunk2 r (matched || (decide (lo ≤ r) && decide (r ≤ hi))) (nrange + 1)
        else
          rangeLoop fuel chunk1 r (matched || (decide (lo ≤ r) && decide (r ≤ lo))) (nrange + 1)

/-- Modelled from the spec: the loop of `matchChunk` in Go's
`path/filepath/match.go` (library code, not among the repository sources).
`failed` records that the match has failed; the loop then goes on checking that
the chunk is well formed. The result is `.error` for a bad pattern, `.ok none`
for no match and `.ok (some rest)` for a match leaving `rest` of the name. -/
def matchChunkLoop : Nat → GoString → GoString → Bool → Option (Except MatchError (Option GoString))
  | _, [], s, failed => some (.ok (if failed then none else some s))
  | 0, _ :: _, _, _ => none
  | fuel + 1, c :: chunk, s, failed0 =>
    let failed := failed0 || s.isEmpty
    if c = 0x5B then                                            -- '['
      let r := if failed then 0 else (DecodeRuneInString s).1
      let s1 := if failed then s else s.drop (DecodeRuneInString s).2
      let negated := decide (chunk.head? = some 0x5E)           -- '^'
      let chunk1 := if negated then chunk.tail else chunk
      match rangeLoop fuel chunk1 r false 0 with
      | none => none
      | some (.error e) => some (.error e)
      | some (.ok (chunk2, matched)) =>
        matchChunkLoop fuel chunk2 s1 (failed || (matched == negated))
    else if c = 0x3F then                                       -- '?'
      let failed1 := failed || decide (s.head? = some Separator)
      let s1 := if failed then s else s.drop (DecodeRuneInString s).2
      matchChunkLoop fuel chunk s1 failed1
    else if c = 0x5C then                                       -- '\\'
      match chunk with
      | [] => some (.error .ErrBadPattern)
      | c1 :: chunk1 =>
        let failed1 := failed || decide (s.head? ≠ some c1)
        let s1 := if failed then s else s.tail
        matchChunkLoop fuel chunk1 s1 failed1
    else
      let failed1 := failed || decide (s.head? ≠ some c)
      let s1 := if failed then s else s.tail
      matchChunkLoop fuel chunk s1 failed1

/-- Modelled from the spec: `matchChunk(chunk, s)` of Go's
`path/filepath/match.go`. -/
def matchChunk (chunk s : GoString) : Option (Except MatchError (Option GoString)) :=
  matchChunkLoop chunk.length chunk s false

/-- The leading stars of a pattern removed (first loop of `scanChunk`). -/
def dropStars : GoString → GoString
  | [] => []
  | c :: p => if c = 0x2A then dropStars p else c :: p

/-- Modelled from the spec: the `Scan` loop of `scanChunk` in Go's
`path/filepath/match.go`: the index of the first star outside a character
class, or the length of the pattern. -/
def scanIndex (inrange : Bool) : GoString → Nat
  | [] => 0
  | c :: p =>
    if c = 0x5C then                                            -- '\\'
      match p with
      | [] => 1
      | _ :: q => 2 + scanIndex inrange q
    else if c = 0x5B then 1 + scanIndex true p                  -- '['
    else if c = 0x5D then 1 + scanIndex false p                 -- ']'
    else if c = 0x2A then (if inrange then 1 + scanIndex inrange p else 0)  -- '*'
    else 1 + scanIndex inrange p

/-- Modelled from the spec: `scanChunk(pattern)` of Go's
`path/filepath/match.go`: `(star, chunk, rest)`. -/
def scanChunk (pattern : GoString) : Bool × GoString × GoString :=
  let p := dropStars pattern
  let i := scanIndex false p
  (decide (pattern.head? = some 0x2A), p.take i, p.drop i)

/-- The syntax check of a glob pattern, chunk by chunk: every chunk that
`scanChunk` cuts off the pattern is read by `matchChunk` against the empty
name; the result is the first syntax error, if any. `filepath.Match` has no
such pass over the whole pattern; the check only serves to say which patterns
are malformed (`badPattern`). -/
def checkRest : Nat → GoString → Option (Except MatchError Unit)
  | _, [] => some (.ok ())
  | 0, _ :: _ => none
  | fuel + 1, c :: p =>
    match matchChunk (scanChunk (c :: p)).2.1 [] with
    | none => none
    | some (.error e) => some (.error e)
    | some (.ok _) => checkRest fuel (scanChunk (c :: p)).2.2

/-- Modelled from the spec: the inner loop of `filepath.Match` ("look for match
skipping i+1 bytes; cannot skip /"): tries `matchChunk(chunk, name[i+1:])` for
`i = 0, 1, ...` while `name[i]` is not the separator. `last` says that the
chunk is the last one of the pattern. Yields the rest of the name after the
first acceptable match, if any. -/
def starLoop (chunk : GoString) (last : Bool) : GoString →
    Option (Except MatchError (Option GoString))
  | [] => some (.ok none)
  | b :: name =>
    if b = Separator then some (.ok none)
    else
      match matchChunk chunk name with
      | none => none
      | some (.error e) => some (.error e)
      | some (.ok (some t)) =>
        if last && !t.isEmpty then starLoop chunk last name
        else some (.ok (some t))
      | some (.ok none) => starLoop chunk last name

/-- Modelled from the spec: the middle of one round of the `Pattern` loop of
`filepath.Match`, after `matchChunk(chunk, name)` returned `r` without error:
the name the loop continues with (`continue` / `continue Pattern`), or `none`
when the round ends in "return false". -/
def nextName (star : Bool) (chunk pattern name : GoString) (r : Option GoString) :
    Option (Except MatchError (Option GoString)) :=
  match r with
  | some t =>
    if t.isEmpty || !pattern.isEmpty then some (.ok (some t))
    else if star then starLoop chunk pattern.isEmpty name
    else some (.ok none)
  | none =>
    if star then starLoop chunk pattern.isEmpty name
    else some (.ok none)

/-- Modelled from the spec: the `Pattern` loop of `filepath.Match` in Go's
`path/filepath/match.go` (Go 1.16 and later, Unix). A round that finds no
match ends in `return false, nil`; the chunks behind it are not read. -/
def matchLoop : Nat → GoString → GoString → Option (Except MatchError Bool)
  | _, [], name => some (.ok name.isEmpty)
  | 0, _ :: _, _ => none
  | fuel + 1, c :: p, name =>
    let star := (scanChunk (c :: p)).1
    let chunk := (scanChunk (c :: p)).2.1
    let pattern := (scanChunk (c :: p)).2.2
    if star && chunk.isEmpty then
      some (.ok (!name.contains Separator))
    else
      match matchChunk chunk name with
      | none => none
      | some (.error e) => some (.error e)
      | some (.ok r) =>
        match nextName star chunk pattern name r with
        | none => none
        | some (.error e) => some (.error e)
        | some (.ok (some t)) => matchLoop fuel pattern t
        | some (.ok none) => some (.ok false)

/-- Modelled from the spec: `filepath.Match(pattern, name)`, the "shell-glob
matching" of the path filter (`*`, `?`, character classes, one path segment
at a time, no recursive `**`). The function belongs to the Go standard library
and is not among the repository sources; the model follows the library's
algorithm (Go 1.16 and later, Unix). `none` stands for fuel exhaustion, which
`Match_some` excludes. -/
def Match (pattern name : GoString) : Option (Except MatchError Bool) :=
  matchLoop pattern.length pattern name

/-- Syntactically malformed pattern: the syntax check (`checkRest` over the
whole pattern) reports `ErrBadPattern` for one of its chunks. -/
def badPattern (pattern : GoString) : Bool :=
  match checkRest pattern.length pattern with
  | some (.error _) => true
  | _ => false

/-- The syntax error of a pattern lies in its first chunk, the part before the
first star that stands outside a character class (leading stars apart), as in
`[` or `x[`. -/
def firstChunkBad (pattern : GoString) : Bool :=
  match matchChunk (scanChunk pattern).2.1 [] with
  | some (.error _) => true
  | _ => false

/-! ## The filter hooks (`GlobFilter`, `IgnoreFilter`) -/

/-- The Go `error` a `watcher.FilterFileHookFunc` returns. -/
inductive HookError where
  /-- The value `nil`: the event is kept. -/
  | nil
  /-- The value `watcher.ErrSkip`: the event is skipped. -/
  | ErrSkip
  /-- Another error, from `os.Getwd` or `filepath.Rel`. -/
  | other (msg : GoString)
  deriving DecidableEq, Repr

/-- The operating system as the hooks see it: the results of `os.Getwd()` and
`filepath.Rel(basepath, targpath)`. -/
structure Sys where
  Getwd : Except GoString GoString
  Rel : GoString → GoString → Except GoString GoString

/-- The `os.FileInfo` argument of a hook (the hooks never read it). -/
structure FileInfo where
  Name : GoString
  IsDir : Bool

/-- The `for _, glob := range globs` loop of `GlobFilter` (main.go lines 27-38). -/
def globLoop : List GoString → GoString → Option HookError
  | [], _ => some .ErrSkip
  | glob :: globs, rel =>
    match Match glob rel with
    | none => none
    | some (.error _) => some .ErrSkip
    | some (.ok matched) => if matched then some .nil else globLoop globs rel

/-- The hook `GlobFilter(globs)` applied to `(info, fullPath)` (main.go lines 17-40). -/
def GlobFilter (sys : Sys) (globs : List GoString) (_info : FileInfo) (fullPath : GoString) :
    Option HookError :=
  match sys.Getwd with
  | .error err => some (.other err)
  | .ok curPath =>
    match sys.Rel curPath fullPath with
    | .error err => some (.other err)
    | .ok rel => globLoop globs rel

/-- The `for _, glob := range globs` loop of `IgnoreFilter` (main.go lines 51-62). -/
def ignoreLoop : List GoString → GoString → Option HookError
  | [], _ => some .nil
  | glob :: globs, rel =>
    match Match glob rel with
    | none => none
    | some (.error _) => some .ErrSkip
    | some (.ok matched) => if matched then some .ErrSkip else ignoreLoop globs rel

/-- The hook `IgnoreFilter(globs)` applied to `(info, fullPath)` (main.go lines 41-64). -/
def IgnoreFilter (sys : Sys) (globs : List GoString) (_info : FileInfo) (fullPath : GoString) :
    Option HookError :=
  match sys.Getwd with
  | .error err => some (.other err)
  | .ok curPath =>
    match sys.Rel curPath fullPath with
    | .error err => some (.other err)
    | .ok rel => ignoreLoop globs rel

/-- A system for concrete examples: the working directory is `/w`, and
`filepath.Rel` of a path below the base directory is the path with the base
and one separator removed (other uses of `Rel` do not occur in the examples). -/
def demoSys : Sys where
  Getwd := .ok (str "/w")
  Rel := fun basepath targpath =>
    if (basepath ++ [Separator]).isPrefixOf targpath then .ok (targpath.drop (basepath.length + 1))
    else .error (str "Rel: can't make path relative")

/-- A file info for concrete examples. -/
def demoInfo : FileInfo := { Name := str "f", IsDir := false }

/-! ## Command parsing (main.go lines 127-132) -/

/-- Modelled from the spec: `strings.Split(s, sep)` of the Go standard library
for a separator of one byte `sep` (the program calls it with `" "`): the
pieces of `s` between consecutive occurrences of the separator. -/
def Split : GoString → Nat → List GoString
  | [], _ => [[]]
  | c :: t, sep =>
    if c = sep then [] :: Split t sep
    else (c :: (Split t sep).headD []) :: (Split t sep).tail

/-- The arguments of `exec.CommandContext(ctx, name, arg...)`. -/
structure Cmd where
  name : GoString
  arg : List GoString
  deriving DecidableEq, Repr

/-- The loop `for _, command := range args` building `commands`
(main.go lines 127-132). `none` is the index-out-of-range panic of `all[0]`. -/
def buildCommands : List GoString → List Cmd → Option (List Cmd)
  | [], commands => some commands
  | command :: args, commands =>
    match Split command 0x20 with
    | [] => none
    | name :: arg => buildCommands args (commands ++ [{ name := name, arg := arg }])

/-- White space in the sense of Go's `unicode.IsSpace` on ASCII bytes. -/
def isSpace (b : Nat) : Bool :=
  b = 0x20 || b = 0x09 || b = 0x0A || b = 0x0B || b = 0x0C || b = 0x0D

/-- Scanner behind `whitespaceTokens`: `cur` is the token being read, reversed. -/
def tokensAux : GoString → GoString → List GoString
  | [], cur => if cur.isEmpty then [] else [cur.reverse]
  | c :: t, cur =>
    if isSpace c then (if cur.isEmpty then tokensAux t [] else cur.reverse :: tokensAux t [])
    else tokensAux t (c :: cur)

/-- The specification's reading of a command line, "whitespace-delimited
tokens": the maximal runs of non-whitespace bytes, in order. -/
def whitespaceTokens (s : GoString) : List GoString := tokensAux s []

/-! ## The command runner (main.go lines 134-140) -/

/-- What `command.CombinedOutput()` returns: the combined output and whether
`err != nil`. -/
structure Outcome where
  out : GoString
  failed : Bool
  deriving DecidableEq, Repr

/-- The observable effect of one trigger's command loop: what `fmt.Print` wrote
and the commands whose `CombinedOutput` was called, in call order. -/
structure RunLog where
  stdout : GoString
  started : List Cmd
  deriving DecidableEq, Repr

/-- The loop `for _, command := range commands` (main.go lines 134-140); each
command comes with the outcome its `CombinedOutput()` call has. -/
def runLoop : List (Cmd × Outcome) → RunLog → RunLog
  | [], log => log
  | (command, o) :: commands, log =>
    let log1 : RunLog := { stdout := log.stdout ++ o.out, started := log.started ++ [command] }
    if o.failed then log1 else runLoop commands log1

/-- One trigger's run, from an empty log. -/
def runCommands (commands : List (Cmd × Outcome)) : RunLog :=
  runLoop commands { stdout := [], started := [] }

/-! ## The drain listener (main.go lines 110-126) -/

/-- What one `select` of the drain listener receives. -/
inductive Signal where
  /-- A value from `w.Event`. -/
  | event
  /-- A value from `done`. -/
  | done
  /-- The closing of `ctx.Done()`. -/
  | ctxDone
  deriving DecidableEq, Repr

/-- The value `watcher.Event{}`. -/
structure Event where
  deriving DecidableEq, Repr

/-- How far the drain listener got on a sequence of signals. -/
inductive ListenerRun where
  /-- Still blocked in `select`, with this value of `hasEvent`. -/
  | waiting (hasEvent : Bool)
  /-- Left the loop on `done`; `sent` are the events it sent on `w.Event`. -/
  | finished (sent : List Event)
  /-- Returned on `ctx.Done()` without sending. -/
  | returned
  deriving DecidableEq, Repr

/-- The drain listener goroutine (main.go lines 110-126) on the signals its
`select` receives, in order; `hasEvent` is the local variable. -/
def listener (hasEvent : Bool) : List Signal → ListenerRun
  | [] => .waiting hasEvent
  | .event :: rest => listener true rest
  | .done :: _ => .finished (if hasEvent then [{}] else [])
  | .ctxDone :: _ => .returned

/-! ## The orchestrator goroutine and its listeners (main.go lines 105-144) -/

/-- Where a drain listener goroutine stands. -/
inductive ListenerPc where
  /-- Blocked in its `select` (line 114). -/
  | selecting
  /-- Blocked in `w.Event <- watcher.Event{}` (line 124). -/
  | sending
  deriving DecidableEq, Repr

/-- A live drain listener goroutine: the `done` channel it was started with,
its local `hasEvent`, and where it stands. -/
structure Listener where
  done : Nat
  hasEvent : Bool
  pc : ListenerPc
  deriving DecidableEq, Repr

/-- Where the orchestrator goroutine stands. -/
inductive OrchPc where
  /-- Blocked in the outer `select` on `w.Event` (line 107). -/
  | selecting
  /-- In the command loop (line 134) with `todo` still to run. -/
  | looping (done : Nat) (todo : List Cmd)
  /-- Inside `command.CombinedOutput()` of `cmd` (line 135). -/
  | executing (done : Nat) (cmd : Cmd) (todo : List Cmd)
  /-- Blocked in `done <- struct{}{}` (line 141). -/
  | sendingDone (done : Nat)
  deriving DecidableEq, Repr

/-- A state of the goroutines of `RunE`. The counters are history variables:
`started` counts the command sequences begun, `returned` those whose command
loop was left, `delivered` those whose completion signal was received. -/
structure World where
  pc : OrchPc
  listeners : List Listener
  chans : Nat
  cancelled : Bool
  started : Nat
  returned : Nat
  delivered : Nat

/-- The state when the orchestrator goroutine is started. -/
def World.init : World :=
  { pc := .selecting, listeners := [], chans := 0, cancelled := false,
    started := 0, returned := 0, delivered := 0 }

/-- The number of command sequences that are executing: begun, and their
completion signal not yet delivered. -/
def World.activeRuns (w : World) : Nat := w.started - w.delivered

/-- The state after the orchestrator received an event: a fresh `done` channel,
a new listener on it, and the command loop entered (lines 108-134). -/
def World.begin (commands : List Cmd) (w : World) (others : List Listener) : World :=
  { w with
    pc := .looping w.chans commands
    listeners := others ++ [{ done := w.chans, hasEvent := false, pc := .selecting }]
    chans := w.chans + 1
    started := w.started + 1 }

/-- One step of the goroutines of `RunE` (lines 105-144); `commands` are the
configured commands. Channels are unbuffered: a send and its receive are one
step. -/
inductive Step (commands : List Cmd) : World → World → Prop where
  /-- The orchestrator receives an event the watcher sends (line 108). -/
  | trigger (w : World) (h : w.pc = .selecting) :
      Step commands w (w.begin commands w.listeners)
  /-- The orchestrator receives the synthetic event of listener `i`, which ends. -/
  | retrigger (w : World) (i : Nat) (l : Listener) (h : w.pc = .selecting)
      (hi : w.listeners[i]? = some l) (hl : l.pc = .sending) :
      Step commands w (w.begin commands (w.listeners.eraseIdx i))
  /-- Listener `i` receives an event the watcher sends (lines 115-116). -/
  | drain (w : World) (i : Nat) (l : Listener)
      (hi : w.listeners[i]? = some l) (hl : l.pc = .selecting) :
      Step commands w { w with listeners := w.listeners.set i { l with hasEvent := true } }
  /-- Listener `i` receives the synthetic event of listener `j`, which ends. -/
  | drainSynthetic (w : World) (i j : Nat) (l k : Listener) (hij : i ≠ j)
      (hi : w.listeners[i]? = some l) (hl : l.pc = .selecting)
      (hj : w.listeners[j]? = some k) (hk : k.pc = .sending) :
      Step commands w
        { w with listeners := (w.listeners.set i { l with hasEvent := true }).eraseIdx j }
  /-- The command loop calls `CombinedOutput` of the next command (line 135). -/
  | cmdStart (w : World) (d : Nat) (c : Cmd) (todo : List Cmd)
      (h : w.pc = .looping d (c :: todo)) :
      Step commands w { w with pc := .executing d c todo }
  /-- The command returns without error; the loop goes on (line 137). -/
  | cmdOk (w : World) (d : Nat) (c : Cmd) (todo : List Cmd)
      (h : w.pc = .executing d c todo) :
      Step commands w { w with pc := .looping d todo }
  /-- The command returns an error; `break` leaves the loop (line 138). -/
  | cmdFail (w : World) (d : Nat) (c : Cmd) (todo : List Cmd)
      (h : w.pc = .executing d c todo) :
      Step commands w { w with pc := .sendingDone d, returned := w.returned + 1 }
  /-- The loop ends after the last command (line 140). -/
  | loopEnd (w : World) (d : Nat) (h : w.pc = .looping d []) :
      Step commands w { w with pc := .sendingDone d, returned := w.returned + 1 }
  /-- Listener `i` receives the completion signal `done` (lines 117 and 141); it
  goes on to send the synthetic event when `hasEvent`, and ends otherwise. -/
  | deliver (w : World) (d i : Nat) (l : Listener) (h : w.pc = .sendingDone d)
      (hi : w.listeners[i]? = some l) (hd : l.done = d) (hl : l.pc = .selecting) :
      Step commands w
        { w with
          pc := .selecting
          listeners :=
            if l.hasEvent then w.listeners.set i { l with pc := .sending }
            else w.listeners.eraseIdx i
          delivered := w.delivered + 1 }
  /-- The context is cancelled. -/
  | cancel (w : World) : Step commands w { w with cancelled := true }
  /-- Listener `i` sees `ctx.Done()` and returns (lines 119-120). -/
  | listenerReturn (w : World) (i : Nat) (l : Listener) (hc : w.cancelled = true)
      (hi : w.listeners[i]? = some l) (hl : l.pc = .selecting) :
      Step commands w { w with listeners := w.listeners.eraseIdx i }

/-- The states the goroutines can reach from the initial one. -/
inductive Reachable (commands : List Cmd) : World → Prop where
  | init : Reachable commands World.init
  | step (w w1 : World) : Reachable commands w → Step commands w w1 → Reachable commands w1

/-! ## Helpers for the proofs -/

/-- The history counters as determined by where the orchestrator stands (the
invariant of `Step`). -/
def World.Inv (w : World) : Prop :=
  match w.pc with
  | .selecting => w.returned = w.started ∧ w.delivered = w.started
  | .looping _ _ => w.started = w.returned + 1 ∧ w.delivered = w.returned
  | .executing _ _ _ => w.started = w.returned + 1 ∧ w.delivered = w.returned
  | .sendingDone _ => w.returned = w.started ∧ w.started = w.delivered + 1

/-- A result with its value forgotten: only fuel exhaustion and the error remain. -/
def void {α : Type} : Option (Except MatchError α) → Option (Except MatchError Unit)
  | none => none
  | some (.error e) => some (.error e)
  | some (.ok _) => some (.ok ())

/-- The result of the range loop without the match flag. -/
def restOf : Option (Except MatchError (GoString × Bool)) → Option (Except MatchError GoString)
  | none => none
  | some (.error e) => some (.error e)
  | some (.ok x) => some (.ok x.1)

/-! ## Facts about the model of `filepath.Match` -/

theorem DecodeRuneInString_width_pos (s : GoString) (h : s ≠ []) :
    1 ≤ (DecodeRuneInString s).2 := by
  unfold DecodeRuneInString
  cases s with
  | nil => exact absurd rfl h
  | cons s0 t =>
    simp only
    split_ifs <;> (try simp) <;> (split <;> (try split_ifs) <;> simp)

theorem getEsc_shorter (chunk nchunk : GoString) (r : Nat)
    (h : getEsc chunk = .ok (r, nchunk)) :
    nchunk ≠ [] ∧ nchunk.length < chunk.length := by
  unfold getEsc at h
  cases chunk with
  | nil => simp at h
  | cons c rest =>
    have hlen : (if c = 0x5C then rest else c :: rest).length ≤ (c :: rest).length := by
      split_ifs <;> simp
    simp only at h
    generalize (if c = 0x5C then rest else c :: rest) = chunk1 at h hlen
    split_ifs at h with h1 h2 h3 h4
    simp only [Except.ok.injEq, Prod.mk.injEq] at h
    obtain ⟨-, rfl⟩ := h
    refine ⟨h4, ?_⟩
    have hw := DecodeRuneInString_width_pos _ h2
    have hpos : 0 < (chunk1.drop (DecodeRuneInString chunk1).2).length :=
      List.length_pos.mpr h4
    rw [List.length_drop] at hpos ⊢
    omega

theorem rangeLoop_some (fuel : Nat) : ∀ (chunk : GoString) (r : Nat) (m : Bool) (n : Nat),
    chunk.length ≤ fuel →
    ∃ res, rangeLoop fuel chunk r m n = some res ∧
      ∀ c2 b, res = .ok (c2, b) → c2.length < chunk.length := by
  induction fuel with
  | zero =>
    intro chunk r m n h
    cases chunk with
    | nil => exact ⟨.error .ErrBadPattern, by simp [rangeLoop], by simp⟩
    | cons c rest => simp at h
  | succ fuel ih =>
    intro chunk r m n h
    cases chunk with
    | nil => exact ⟨.error .ErrBadPattern, by simp [rangeLoop], by simp⟩
    | cons c rest =>
      simp only [rangeLoop]
      split_ifs with h1
      · exact ⟨_, rfl, by intro c2 b hb; simp only [Except.ok.injEq, Prod.mk.injEq] at hb; simp [← hb.1]⟩
      · cases hg : getEsc (c :: rest) with
        | error e => exact ⟨_, rfl, by simp⟩
        | ok x =>
          obtain ⟨lo, chunk1⟩ := x
          obtain ⟨hne, hlt⟩ := getEsc_shorter _ _ _ hg
          simp only
          split_ifs with h2
          · cases hg2 : getEsc chunk1.tail with
            | error e => exact ⟨_, rfl, by simp⟩
            | ok y =>
              obtain ⟨hi, chunk2⟩ := y
              obtain ⟨hne2, hlt2⟩ := getEsc_shorter _ _ _ hg2
              have ht : chunk1.tail.length ≤ chunk1.length := by simp
              simp only
              obtain ⟨res, hres, hlen⟩ := ih chunk2 r (m || (decide (lo ≤ r) && decide (r ≤ hi))) (n + 1)
                (by simp only [List.length_cons] at h hlt; omega)
              exact ⟨res, hres, fun c2 b hb => by have := hlen c2 b hb; omega⟩
          · obtain ⟨res, hres, hlen⟩ := ih chunk1 r (m || (decide (lo ≤ r) && decide (r ≤ lo))) (n + 1)
              (by simp only [List.length_cons] at h hlt; omega)
            exact ⟨res, hres, fun c2 b hb => by have := hlen c2 b hb; omega⟩

theorem rangeLoop_restOf (fuel : Nat) : ∀ (chunk : GoString) (r r1 : Nat) (m m1 : Bool) (n : Nat),
    restOf (rangeLoop fuel chunk r m n) = restOf (rangeLoop fuel chunk r1 m1 n) := by
  induction fuel with
  | zero =>
    intro chunk r r1 m m1 n
    cases chunk <;> simp [rangeLoop, restOf]
  | succ fuel ih =>
    intro chunk r r1 m m1 n
    cases chunk with
    | nil => simp [rangeLoop, restOf]
    | cons c rest =>
      simp only [rangeLoop]
      split_ifs with h1
      · simp [restOf]
      · cases hg : getEsc (c :: rest) with
        | error e => simp [restOf]
        | ok x =>
          obtain ⟨lo, chunk1⟩ := x
          simp only
          split_ifs with h2
          · cases hg2 : getEsc chunk1.tail with
            | error e => simp [restOf]
            | ok y =>
              obtain ⟨hi, chunk2⟩ := y
              exact ih _ _ _ _ _ _
          · exact ih _ _ _ _ _ _

theorem matchChunkLoop_some (fuel : Nat) : ∀ (chunk s : GoString) (f : Bool),
    chunk.length ≤ fuel → ∃ res, matchChunkLoop fuel chunk s f = some res := by
  induction fuel with
  | zero =>
    intro chunk s f h
    cases chunk with
    | nil => simp only [matchChunkLoop]; exact ⟨_, rfl⟩
    | cons c rest => simp at h
  | succ fuel ih =>
    intro chunk s f h
    cases chunk with
    | nil => simp only [matchChunkLoop]; exact ⟨_, rfl⟩
    | cons c chunk =>
      simp only [List.length_cons, Nat.add_le_add_iff_right] at h
      simp only [matchChunkLoop]
      by_cases h1 : c = 0x5B
      · rw [if_pos h1]
        have hl : (if decide (chunk.head? = some 0x5E) = true then chunk.tail else chunk).length
            ≤ fuel := by
          split_ifs
          · simp only [List.length_tail]; omega
          · exact h
        generalize (if decide (chunk.head? = some 0x5E) = true then chunk.tail else chunk)
          = chunk1 at hl ⊢
        generalize (if (f || s.isEmpty) = true then 0 else (DecodeRuneInString s).1) = r
        obtain ⟨res, hres, hlen⟩ := rangeLoop_some fuel chunk1 r false 0 hl
        rw [hres]
        cases res with
        | error e => exact ⟨_, rfl⟩
        | ok x =>
          obtain ⟨chunk2, matched⟩ := x
          have := hlen chunk2 matched rfl
          exact ih _ _ _ (by omega)
      · rw [if_neg h1]
        by_cases h2 : c = 0x3F
        · rw [if_pos h2]; exact ih _ _ _ h
        · rw [if_neg h2]
          by_cases h3 : c = 0x5C
          · rw [if_pos h3]
            cases chunk with
            | nil => exact ⟨_, rfl⟩
            | cons c1 chunk1 =>
              simp only [List.length_cons] at h
              exact ih _ _ _ (by omega)
          · rw [if_neg h3]; exact ih _ _ _ h

theorem matchChunkLoop_void (fuel : Nat) : ∀ (chunk s s1 : GoString) (f f1 : Bool),
    void (matchChunkLoop fuel chunk s f) = void (matchChunkLoop fuel chunk s1 f1) := by
  induction fuel with
  | zero =>
    intro chunk s s1 f f1
    cases chunk <;> simp [matchChunkLoop, void]
  | succ fuel ih =>
    intro chunk s s1 f f1
    cases chunk with
    | nil => simp [matchChunkLoop, void]
    | cons c chunk =>
      simp only [matchChunkLoop]
      by_cases h1 : c = 0x5B
      · rw [if_pos h1, if_pos h1]
        generalize (if decide (chunk.head? = some 0x5E) = true then chunk.tail else chunk)
          = chunk1
        have hr := rangeLoop_restOf fuel chunk1
          (if (f || s.isEmpty) = true then 0 else (DecodeRuneInString s).1)
          (if (f1 || s1.isEmpty) = true then 0 else (DecodeRuneInString s1).1) false false 0
        revert hr
        generalize rangeLoop fuel chunk1
          (if (f || s.isEmpty) = true then 0 else (DecodeRuneInString s).1) false 0 = x
        generalize rangeLoop fuel chunk1
          (if (f1 || s1.isEmpty) = true then 0 else (DecodeRuneInString s1).1) false 0 = y
        intro hr
        rcases x with _ | ⟨e | ⟨a1, a2⟩⟩ <;> rcases y with _ | ⟨e1 | ⟨b1, b2⟩⟩ <;>
          simp only [restOf, Option.some.injEq, Except.error.injEq, Except.ok.injEq,
            reduceCtorEq] at hr
        · rfl
        · cases e; cases e1; rfl
        · subst hr; exact ih _ _ _ _ _
      · rw [if_neg h1, if_neg h1]
        by_cases h2 : c = 0x3F
        · rw [if_pos h2, if_pos h2]; exact ih _ _ _ _ _
        · rw [if_neg h2, if_neg h2]
          by_cases h3 : c = 0x5C
          · rw [if_pos h3, if_pos h3]
            cases chunk with
            | nil => rfl
            | cons c1 chunk1 => exact ih _ _ _ _ _
          · rw [if_neg h3, if_neg h3]; exact ih _ _ _ _ _

theorem matchChunk_some (chunk s : GoString) : ∃ res, matchChunk chunk s = some res :=
  matchChunkLoop_some _ _ _ _ (Nat.le_refl _)

theorem matchChunk_void (chunk s : GoString) :
    void (matchChunk chunk s) = void (matchChunk chunk []) :=
  matchChunkLoop_void _ _ _ _ _ _

theorem dropStars_length_le (p : GoString) : (dropStars p).length ≤ p.length := by
  induction p with
  | nil => simp [dropStars]
  | cons c p ih =>
    simp only [dropStars]
    split_ifs
    · simp only [List.length_cons]; omega
    · exact Nat.le_refl _

theorem dropStars_head (p : GoString) (d : Nat) (q : GoString) (h : dropStars p = d :: q) :
    d ≠ 0x2A := by
  induction p with
  | nil => simp [dropStars] at h
  | cons c p ih =>
    simp only [dropStars] at h
    split_ifs at h with hc
    · exact ih h
    · simp only [List.cons.injEq] at h
      exact h.1 ▸ hc

theorem scanIndex_pos (inrange : Bool) (d : Nat) (q : GoString) (h : d ≠ 0x2A) :
    1 ≤ scanIndex inrange (d :: q) := by
  unfold scanIndex
  by_cases h1 : d = 0x5C
  · rw [if_pos h1]
    cases q with
    | nil => exact Nat.le_refl _
    | cons a q => simp only; omega
  · rw [if_neg h1]
    by_cases h2 : d = 0x5B
    · rw [if_pos h2]; omega
    · rw [if_neg h2]
      by_cases h3 : d = 0x5D
      · rw [if_pos h3]; omega
      · rw [if_neg h3, if_neg h]; omega

theorem scanChunk_rest_lt (c : Nat) (p : GoString) :
    (scanChunk (c :: p)).2.2.length < (c :: p).length := by
  simp only [scanChunk, List.length_drop, List.length_cons]
  by_cases hc : c = 0x2A
  · have h1 : dropStars (c :: p) = dropStars p := by simp [dropStars, hc]
    rw [h1]
    have := dropStars_length_le p
    omega
  · have h1 : dropStars (c :: p) = c :: p := by simp [dropStars, hc]
    rw [h1]
    have := scanIndex_pos false c p hc
    simp only [List.length_cons]
    omega

theorem scanChunk_chunk_nil (pattern : GoString) (h : (scanChunk pattern).2.1 = []) :
    (scanChunk pattern).2.2 = [] := by
  simp only [scanChunk] at h ⊢
  cases hd : dropStars pattern with
  | nil => simp
  | cons d q =>
    rw [hd] at h
    have := scanIndex_pos false d q (dropStars_head _ _ _ hd)
    obtain ⟨k, hk⟩ : ∃ k, scanIndex false (d :: q) = k + 1 := ⟨_, (Nat.sub_add_cancel this).symm⟩
    rw [hk] at h
    simp at h

theorem checkRest_fuel (n : Nat) : ∀ (p : GoString) (fuel1 fuel2 : Nat),
    p.length ≤ n → p.length ≤ fuel1 → p.length ≤ fuel2 →
    checkRest fuel1 p = checkRest fuel2 p ∧ ∃ res, checkRest fuel1 p = some res := by
  induction n with
  | zero =>
    intro p fuel1 fuel2 hn _ _
    cases p with
    | nil => simp [checkRest]
    | cons c q => simp at hn
  | succ n ih =>
    intro p fuel1 fuel2 hn h1 h2
    cases p with
    | nil => simp [checkRest]
    | cons c q =>
      cases fuel1 with
      | zero => simp at h1
      | succ f1 =>
        cases fuel2 with
        | zero => simp at h2
        | succ f2 =>
          have hlt := scanChunk_rest_lt c q
          simp only [List.length_cons] at hn h1 h2 hlt
          simp only [checkRest]
          obtain ⟨res, hres⟩ := matchChunk_some (scanChunk (c :: q)).2.1 []
          rw [hres]
          cases res with
          | error e => exact ⟨rfl, _, rfl⟩
          | ok x => exact ih _ f1 f2 (by omega) (by omega) (by omega)

theorem checkRest_some (p : GoString) : ∃ res, checkRest p.length p = some res :=
  (checkRest_fuel p.length p p.length p.length (Nat.le_refl _) (Nat.le_refl _) (Nat.le_refl _)).2

theorem checkRest_eq (p : GoString) (fuel : Nat) (h : p.length ≤ fuel) :
    checkRest fuel p = checkRest p.length p :=
  (checkRest_fuel p.length p fuel p.length (Nat.le_refl _) h (Nat.le_refl _)).1

theorem starLoop_some (chunk : GoString) (last : Bool) (name : GoString) :
    ∃ res, starLoop chunk last name = some res := by
  induction name with
  | nil => exact ⟨_, rfl⟩
  | cons b name ih =>
    simp only [starLoop]
    by_cases hb : b = Separator
    · rw [if_pos hb]; exact ⟨_, rfl⟩
    · rw [if_neg hb]
      obtain ⟨res, hres⟩ := matchChunk_some chunk name
      rw [hres]
      rcases res with e | (_ | t)
      · exact ⟨_, rfl⟩
      · exact ih
      · simp only
        split_ifs
        · exact ih
        · exact ⟨_, rfl⟩

theorem matchChunk_ok_of_void (chunk s : GoString)
    (h : void (matchChunk chunk []) = some (.ok ())) :
    ∃ r, matchChunk chunk s = some (.ok r) := by
  have hv := matchChunk_void chunk s
  rw [h] at hv
  rcases hm : matchChunk chunk s with _ | (e | r)
  · rw [hm] at hv; simp [void] at hv
  · rw [hm] at hv; simp [void] at hv
  · exact ⟨r, rfl⟩

theorem starLoop_ok (chunk : GoString) (last : Bool) (name : GoString)
    (h : void (matchChunk chunk []) = some (.ok ())) :
    ∃ r, starLoop chunk last name = some (.ok r) := by
  induction name with
  | nil => exact ⟨_, rfl⟩
  | cons b name ih =>
    simp only [starLoop]
    by_cases hb : b = Separator
    · rw [if_pos hb]; exact ⟨_, rfl⟩
    · rw [if_neg hb]
      obtain ⟨r, hr⟩ := matchChunk_ok_of_void chunk name h
      rw [hr]
      cases r with
      | none => exact ih
      | some t =>
        simp only
        split_ifs
        · exact ih
        · exact ⟨_, rfl⟩

theorem nextName_ok (star : Bool) (chunk pattern name : GoString) (r : Option GoString)
    (h : void (matchChunk chunk []) = some (.ok ())) :
    ∃ t, nextName star chunk pattern name r = some (.ok t) := by
  unfold nextName
  cases r with
  | none =>
    simp only
    split_ifs
    · exact starLoop_ok _ _ _ h
    · exact ⟨_, rfl⟩
  | some t =>
    simp only
    split_ifs
    · exact ⟨_, rfl⟩
    · exact starLoop_ok _ _ _ h
    · exact ⟨_, rfl⟩

theorem matchLoop_spec (fuel : Nat) : ∀ (p name : GoString), p.length ≤ fuel →
    ∃ res, matchLoop fuel p name = some res ∧
      ∀ e, res = .error e → checkRest p.length p = some (.error e) := by
  induction fuel with
  | zero =>
    intro p name h
    cases p with
    | nil => exact ⟨.ok name.isEmpty, by simp only [matchLoop], fun e he => by cases he⟩
    | cons c q => simp at h
  | succ fuel ih =>
    intro p name h
    cases p with
    | nil => exact ⟨.ok name.isEmpty, by simp only [matchLoop], fun e he => by cases he⟩
    | cons c q =>
      have hlt := scanChunk_rest_lt c q
      simp only [List.length_cons] at h hlt
      have hfuel : (scanChunk (c :: q)).2.2.length ≤ fuel := by omega
      have hcr : checkRest q.length (scanChunk (c :: q)).2.2
          = checkRest (scanChunk (c :: q)).2.2.length (scanChunk (c :: q)).2.2 :=
        checkRest_eq _ _ (by omega)
      simp only [List.length_cons, matchLoop, checkRest]
      rw [hcr]
      by_cases hs : ((scanChunk (c :: q)).1 && (scanChunk (c :: q)).2.1.isEmpty) = true
      · rw [if_pos hs]
        exact ⟨_, rfl, fun e he => by cases he⟩
      · rw [if_neg hs]
        obtain ⟨res, hres⟩ := matchChunk_some (scanChunk (c :: q)).2.1 name
        have hv := matchChunk_void (scanChunk (c :: q)).2.1 name
        rw [hres] at hv ⊢
        cases res with
        | error e =>
          rcases hm : matchChunk (scanChunk (c :: q)).2.1 [] with _ | (e1 | r1)
          · rw [hm] at hv; simp [void] at hv
          · exact ⟨.error e, rfl, fun e2 _ => by cases e1; cases e2; rfl⟩
          · rw [hm] at hv; simp [void] at hv
        | ok r =>
          have hv1 : void (matchChunk (scanChunk (c :: q)).2.1 []) = some (.ok ()) := hv.symm
          obtain ⟨r0, hr0⟩ := matchChunk_ok_of_void _ [] hv1
          obtain ⟨t, ht⟩ := nextName_ok (scanChunk (c :: q)).1 (scanChunk (c :: q)).2.1
            (scanChunk (c :: q)).2.2 name r hv1
          rw [hr0]
          simp only
          rw [ht]
          cases t with
          | some t1 => exact ih _ _ hfuel
          | none => exact ⟨.ok false, rfl, fun e he => by cases he⟩

/-- The model of `filepath.Match` never runs out of fuel. -/
theorem Match_some (pattern name : GoString) : ∃ res, Match pattern name = some res := by
  obtain ⟨res, hres, -⟩ := matchLoop_spec pattern.length pattern name (Nat.le_refl _)
  exact ⟨res, hres⟩

/-- When `filepath.Match` reports `ErrBadPattern`, the pattern is malformed. -/
theorem Match_error_bad (pattern name : GoString) (e : MatchError)
    (h : Match pattern name = some (.error e)) : badPattern pattern = true := by
  obtain ⟨res, hres, herr⟩ := matchLoop_spec pattern.length pattern name (Nat.le_refl _)
  unfold Match at h
  rw [hres] at h
  simp only [Option.some.injEq] at h
  unfold badPattern
  rw [herr e h]

/-- On a well-formed pattern `filepath.Match` returns a boolean and no error. -/
theorem Match_ok_of_wellFormed (pattern name : GoString) (h : badPattern pattern = false) :
    ∃ b, Match pattern name = some (.ok b) := by
  obtain ⟨res, hres⟩ := Match_some pattern name
  cases res with
  | ok b => exact ⟨b, hres⟩
  | error e =>
    rw [Match_error_bad pattern name e hres] at h
    cases h

/-- A syntax error in the first chunk of the pattern is reported by
`filepath.Match` whatever the name. -/
theorem Match_error_of_firstChunkBad (pattern name : GoString)
    (h : firstChunkBad pattern = true) :
    Match pattern name = some (.error .ErrBadPattern) := by
  cases pattern with
  | nil => exact absurd h (by decide)
  | cons c q =>
    unfold firstChunkBad at h
    unfold Match
    simp only [List.length_cons, matchLoop]
    have hv := matchChunk_void (scanChunk (c :: q)).2.1 name
    rcases hm : matchChunk (scanChunk (c :: q)).2.1 [] with _ | (e1 | r1)
    · rw [hm] at h; simp at h
    · rw [hm] at hv
      have hne : ¬ ((scanChunk (c :: q)).1 && (scanChunk (c :: q)).2.1.isEmpty) = true := by
        intro hs
        simp only [Bool.and_eq_true, List.isEmpty_iff] at hs
        rw [hs.2] at hm
        simp [matchChunk, matchChunkLoop] at hm
      rw [if_neg hne]
      rcases hn : matchChunk (scanChunk (c :: q)).2.1 name with _ | (e | r)
      · rw [hn] at hv; simp [void] at hv
      · cases e; rfl
      · rw [hn] at hv; simp [void] at hv
    · rw [hm] at h; simp at h

/-! ## The filter hooks -/

theorem ignoreLoop_wellFormed (rel : GoString) : ∀ (globs : List GoString),
    (∀ g ∈ globs, badPattern g = false) →
    (ignoreLoop globs rel = some .ErrSkip ∧ ∃ g ∈ globs, Match g rel = some (.ok true)) ∨
    (ignoreLoop globs rel = some .nil ∧ ¬ ∃ g ∈ globs, Match g rel = some (.ok true)) := by
  intro globs
  induction globs with
  | nil => intro _; right; simp [ignoreLoop]
  | cons glob globs ih =>
    intro hwf
    obtain ⟨b, hb⟩ := Match_ok_of_wellFormed glob rel (hwf glob (List.mem_cons_self _ _))
    simp only [ignoreLoop, hb]
    cases b with
    | true => left; exact ⟨rfl, glob, List.mem_cons_self _ _, hb⟩
    | false =>
      rcases ih (fun g hg => hwf g (List.mem_cons_of_mem _ hg)) with ⟨h1, g, hg, hm⟩ | ⟨h1, h2⟩
      · left; exact ⟨by simpa using h1, g, List.mem_cons_of_mem _ hg, hm⟩
      · right
        refine ⟨by simpa using h1, ?_⟩
        rintro ⟨g, hg, hm⟩
        rcases List.mem_cons.mp hg with rfl | hg1
        · rw [hb] at hm; simp at hm
        · exact h2 ⟨g, hg1, hm⟩

theorem globLoop_wellFormed (rel : GoString) : ∀ (globs : List GoString),
    (∀ g ∈ globs, badPattern g = false) →
    (globLoop globs rel = some .nil ∧ ∃ g ∈ globs, Match g rel = some (.ok true)) ∨
    (globLoop globs rel = some .ErrSkip ∧ ¬ ∃ g ∈ globs, Match g rel = some (.ok true)) := by
  intro globs
  induction globs with
  | nil => intro _; right; simp [globLoop]
  | cons glob globs ih =>
    intro hwf
    obtain ⟨b, hb⟩ := Match_ok_of_wellFormed glob rel (hwf glob (List.mem_cons_self _ _))
    simp only [globLoop, hb]
    cases b with
    | true => left; exact ⟨rfl, glob, List.mem_cons_self _ _, hb⟩
    | false =>
      rcases ih (fun g hg => hwf g (List.mem_cons_of_mem _ hg)) with ⟨h1, g, hg, hm⟩ | ⟨h1, h2⟩
      · left; exact ⟨by simpa using h1, g, List.mem_cons_of_mem _ hg, hm⟩
      · right
        refine ⟨by simpa using h1, ?_⟩
        rintro ⟨g, hg, hm⟩
        rcases List.mem_cons.mp hg with rfl | hg1
        · rw [hb] at hm; simp at hm
        · exact h2 ⟨g, hg1, hm⟩

theorem ignoreLoop_result (rel : GoString) : ∀ (globs : List GoString),
    (ignoreLoop globs rel = some .ErrSkip ∧
      ∃ g ∈ globs, Match g rel = some (.ok true) ∨ Match g rel = some (.error .ErrBadPattern)) ∨
    (ignoreLoop globs rel = some .nil ∧ ∀ g ∈ globs, Match g rel = some (.ok false)) := by
  intro globs
  induction globs with
  | nil => right; simp [ignoreLoop]
  | cons glob globs ih =>
    obtain ⟨res, hres⟩ := Match_some glob rel
    simp only [ignoreLoop, hres]
    rcases res with e | b
    · cases e
      left; exact ⟨rfl, glob, List.mem_cons_self _ _, Or.inr hres⟩
    · cases b with
      | true => left; exact ⟨rfl, glob, List.mem_cons_self _ _, Or.inl hres⟩
      | false =>
        rcases ih with ⟨h1, g, hg, hm⟩ | ⟨h1, h2⟩
        · left; exact ⟨by simpa using h1, g, List.mem_cons_of_mem _ hg, hm⟩
        · right
          refine ⟨by simpa using h1, ?_⟩
          intro g hg
          rcases List.mem_cons.mp hg with rfl | hg1
          · exact hres
          · exact h2 g hg1

theorem ignoreLoop_malformed (rel : GoString) (globs : List GoString)
    (h : ∃ g ∈ globs, Match g rel = some (.error .ErrBadPattern)) :
    ignoreLoop globs rel = some .ErrSkip := by
  rcases ignoreLoop_result rel globs with ⟨h1, -⟩ | ⟨-, h2⟩
  · exact h1
  · obtain ⟨g, hg, hm⟩ := h
    rw [h2 g hg] at hm
    simp at hm

theorem globLoop_malformed (rel : GoString) : ∀ (pre : List GoString) (bad : GoString)
    (post : List GoString), Match bad rel = some (.error .ErrBadPattern) →
    (∀ g ∈ pre, Match g rel ≠ some (.ok true)) →
    globLoop (pre ++ bad :: post) rel = some .ErrSkip := by
  intro pre
  induction pre with
  | nil =>
    intro bad post hbad _
    simp only [List.nil_append, globLoop, hbad]
  | cons glob pre ih =>
    intro bad post hbad hpre
    obtain ⟨res, hres⟩ := Match_some glob rel
    simp only [List.cons_append, globLoop, hres]
    rcases res with e | b
    · rfl
    · cases b with
      | true => exact absurd hres (hpre glob (List.mem_cons_self _ _))
      | false =>
        simpa using ih bad post hbad (fun g hg => hpre g (List.mem_cons_of_mem _ hg))

/-- C1. Exclude filter semantics: on a list of well-formed glob patterns and an
event path whose relative path `rel` can be computed, `IgnoreFilter(globs)`
returns `watcher.ErrSkip` if and only if `filepath.Match` matches `rel` against at
least one pattern of the list, and `nil` (keep) exactly otherwise; with the
empty pattern list it returns `nil`. -/
theorem IgnoreFilter_semantics (sys : Sys) (globs : List GoString) (info : FileInfo)
    (fullPath curPath rel : GoString)
    (hwd : sys.Getwd = .ok curPath) (hrel : sys.Rel curPath fullPath = .ok rel)
    (hwf : ∀ g ∈ globs, badPattern g = false) :
    (IgnoreFilter sys globs info fullPath = some .ErrSkip ↔
      ∃ g ∈ globs, Match g rel = some (.ok true)) ∧
    (IgnoreFilter sys globs info fullPath = some .nil ↔
      ¬ ∃ g ∈ globs, Match g rel = some (.ok true)) ∧
    IgnoreFilter sys [] info fullPath = some .nil := by
  simp only [IgnoreFilter, hwd, hrel]
  refine ⟨?_, ?_, rfl⟩
  · rcases ignoreLoop_wellFormed rel globs hwf with ⟨h1, h2⟩ | ⟨h1, h2⟩
    · simp [h1, h2]
    · rw [h1]; simp only [Option.some.injEq, reduceCtorEq, false_iff]; exact h2
  · rcases ignoreLoop_wellFormed rel globs hwf with ⟨h1, h2⟩ | ⟨h1, h2⟩
    · rw [h1]; simp only [Option.some.injEq, reduceCtorEq, false_iff, not_not]; exact h2
    · simp only [h1, true_iff]; exact h2

/-- Witness of C1: the patterns `.git/*` and `*.tmp` are well formed, the path
`/w/.git/HEAD` has the relative path `.git/HEAD`, and the filter skips it. -/
theorem IgnoreFilter_semantics_witness :
    (demoSys.Getwd = .ok (str "/w") ∧
      demoSys.Rel (str "/w") (str "/w/.git/HEAD") = .ok (str ".git/HEAD") ∧
      ∀ g ∈ [str ".git/*", str "*.tmp"], badPattern g = false) ∧
    (IgnoreFilter demoSys [str ".git/*", str "*.tmp"] demoInfo (str "/w/.git/HEAD")
        = some .ErrSkip ↔
      ∃ g ∈ [str ".git/*", str "*.tmp"], Match g (str ".git/HEAD") = some (.ok true)) :=
  ⟨⟨rfl, rfl, by decide⟩,
   (IgnoreFilter_semantics demoSys [str ".git/*", str "*.tmp"] demoInfo (str "/w/.git/HEAD")
      (str "/w") (str ".git/HEAD") rfl rfl (by decide)).1⟩

/-- Counterexample to C7 as stated: the exclude list holds the malformed
pattern `a*[` (an unmatched bracket), yet the event whose relative path is `b`
is kept: `filepath.Match` gives up at the first chunk `a`, which does not match,
returns false without error, and never reads the bracket. -/
theorem IgnoreFilter_malformed_counterexample :
    badPattern (str "a*[") = true ∧
    demoSys.Getwd = .ok (str "/w") ∧
    demoSys.Rel (str "/w") (str "/w/b") = .ok (str "b") ∧
    Match (str "a*[") (str "b") = some (.ok false) ∧
    IgnoreFilter demoSys [str "a*["] demoInfo (str "/w/b") = some .nil :=
  ⟨by decide, rfl, rfl, rfl, by decide⟩

/-- C7, amended. Glob error safety in the exclude list: when the relative path
of the event can be computed, `IgnoreFilter` returns `nil` or `watcher.ErrSkip`
and never another error; it returns `watcher.ErrSkip` whenever `filepath.Match`
reports `ErrBadPattern` for some pattern of the list on that relative path; and
`filepath.Match` does report it, whatever the path, for a pattern whose syntax
error lies in its first chunk (such as `[` or `x[`), so that such a pattern in
the list makes the hook skip the event. -/
theorem IgnoreFilter_malformed (sys : Sys) (globs : List GoString) (info : FileInfo)
    (fullPath curPath rel : GoString)
    (hwd : sys.Getwd = .ok curPath) (hrel : sys.Rel curPath fullPath = .ok rel) :
    (IgnoreFilter sys globs info fullPath = some .nil ∨
      IgnoreFilter sys globs info fullPath = some .ErrSkip) ∧
    ((∃ g ∈ globs, Match g rel = some (.error .ErrBadPattern)) →
      IgnoreFilter sys globs info fullPath = some .ErrSkip) ∧
    ((∃ g ∈ globs, firstChunkBad g = true) →
      IgnoreFilter sys globs info fullPath = some .ErrSkip) := by
  simp only [IgnoreFilter, hwd, hrel]
  refine ⟨?_, ?_, ?_⟩
  · rcases ignoreLoop_result rel globs with ⟨h1, -⟩ | ⟨h1, -⟩
    · exact Or.inr h1
    · exact Or.inl h1
  · exact ignoreLoop_malformed rel globs
  · rintro ⟨g, hg, hbad⟩
    exact ignoreLoop_malformed rel globs ⟨g, hg, Match_error_of_firstChunkBad g rel hbad⟩

/-- Witness of the amended C7: in the list `*.md`, `x[` the second pattern has
an unmatched bracket in its first chunk; the event for `src/main.go`, which
the first pattern does not match, is skipped. -/
theorem IgnoreFilter_malformed_witness :
    (demoSys.Getwd = .ok (str "/w") ∧
      demoSys.Rel (str "/w") (str "/w/src/main.go") = .ok (str "src/main.go") ∧
      ∃ g ∈ [str "*.md", str "x["], firstChunkBad g = true) ∧
    IgnoreFilter demoSys [str "*.md", str "x["] demoInfo (str "/w/src/main.go")
      = some .ErrSkip :=
  ⟨⟨rfl, rfl, str "x[", by decide, by decide⟩,
   (IgnoreFilter_malformed demoSys [str "*.md", str "x["] demoInfo (str "/w/src/main.go")
      (str "/w") (str "src/main.go") rfl rfl).2.2 ⟨str "x[", by decide, by decide⟩⟩

/-- C8. Include filter semantics: on a list of well-formed glob patterns and an
event path whose relative path `rel` can be computed, `GlobFilter(globs)`
returns `nil` (keep) if and only if `filepath.Match` matches `rel` against at
least one pattern of the list, and `watcher.ErrSkip` exactly otherwise; with
the empty list it returns `watcher.ErrSkip`; and with the one pattern
`src/*.go` a relative path `src/main.go` is kept and `docs/readme.md` is
skipped. -/
theorem GlobFilter_semantics (sys : Sys) (globs : List GoString) (info : FileInfo)
    (fullPath curPath rel : GoString)
    (hwd : sys.Getwd = .ok curPath) (hrel : sys.Rel curPath fullPath = .ok rel)
    (hwf : ∀ g ∈ globs, badPattern g = false) :
    (GlobFilter sys globs info fullPath = some .nil ↔
      ∃ g ∈ globs, Match g rel = some (.ok true)) ∧
    (GlobFilter sys globs info fullPath = some .ErrSkip ↔
      ¬ ∃ g ∈ globs, Match g rel = some (.ok true)) ∧
    GlobFilter sys [] info fullPath = some .ErrSkip ∧
    (rel = str "src/main.go" → GlobFilter sys [str "src/*.go"] info fullPath = some .nil) ∧
    (rel = str "docs/readme.md" →
      GlobFilter sys [str "src/*.go"] info fullPath = some .ErrSkip) := by
  simp only [GlobFilter, hwd, hrel]
  refine ⟨?_, ?_, rfl, ?_, ?_⟩
  · rcases globLoop_wellFormed rel globs hwf with ⟨h1, h2⟩ | ⟨h1, h2⟩
    · simp [h1, h2]
    · rw [h1]; simp only [Option.some.injEq, reduceCtorEq, false_iff]; exact h2
  · rcases globLoop_wellFormed rel globs hwf with ⟨h1, h2⟩ | ⟨h1, h2⟩
    · rw [h1]; simp only [Option.some.injEq, reduceCtorEq, false_iff, not_not]; exact h2
    · simp only [h1, true_iff]; exact h2
  · rintro rfl; decide
  · rintro rfl; decide

/-- Witness of C8: the pattern `src/*.go` is well formed, the path
`/w/src/main.go` has the relative path `src/main.go`, and the filter keeps
it. -/
theorem GlobFilter_semantics_witness :
    (demoSys.Getwd = .ok (str "/w") ∧
      demoSys.Rel (str "/w") (str "/w/src/main.go") = .ok (str "src/main.go") ∧
      ∀ g ∈ [str "src/*.go"], badPattern g = false) ∧
    GlobFilter demoSys [str "src/*.go"] demoInfo (str "/w/src/main.go") = some .nil ∧
    GlobFilter demoSys [] demoInfo (str "/w/src/main.go") = some .ErrSkip :=
  ⟨⟨rfl, rfl, by decide⟩,
   (GlobFilter_semantics demoSys [str "src/*.go"] demoInfo (str "/w/src/main.go")
      (str "/w") (str "src/main.go") rfl rfl (by decide)).2.2.2.1 rfl,
   (GlobFilter_semantics demoSys [str "src/*.go"] demoInfo (str "/w/src/main.go")
      (str "/w") (str "src/main.go") rfl rfl (by decide)).2.2.1⟩

/-- Counterexample to C9 as stated: the include list `*.go`, `[` contains a
malformed pattern, yet the event for `main.go` is kept, because the first
pattern already matches and the loop returns before reading the second; and
with the include list `a*[`, `b` the event for `b` is kept, because
`filepath.Match` gives up at the chunk `a` of the malformed pattern and returns
false without error, after which `b` matches. -/
theorem GlobFilter_malformed_counterexample :
    badPattern (str "[") = true ∧
    demoSys.Getwd = .ok (str "/w") ∧
    demoSys.Rel (str "/w") (str "/w/main.go") = .ok (str "main.go") ∧
    GlobFilter demoSys [str "*.go", str "["] demoInfo (str "/w/main.go") = some .nil ∧
    badPattern (str "a*[") = true ∧
    demoSys.Rel (str "/w") (str "/w/b") = .ok (str "b") ∧
    GlobFilter demoSys [str "a*[", str "b"] demoInfo (str "/w/b") = some .nil :=
  ⟨by decide, rfl, rfl, by decide, by decide, rfl, by decide⟩

/-- C9, amended. Malformed pattern in include mode: when the relative path of
the event can be computed and no pattern standing before `bad` in the include
list matches it, `GlobFilter` returns `watcher.ErrSkip` if `filepath.Match`
reports `ErrBadPattern` for `bad` on that relative path; and `filepath.Match`
does report it, whatever the path, when the syntax error of `bad` lies in its
first chunk (such as `[` or `x[`). -/
theorem GlobFilter_malformed (sys : Sys) (pre : List GoString) (bad : GoString)
    (post : List GoString) (info : FileInfo) (fullPath curPath rel : GoString)
    (hwd : sys.Getwd = .ok curPath) (hrel : sys.Rel curPath fullPath = .ok rel)
    (hpre : ∀ g ∈ pre, Match g rel ≠ some (.ok true)) :
    (Match bad rel = some (.error .ErrBadPattern) →
      GlobFilter sys (pre ++ bad :: post) info fullPath = some .ErrSkip) ∧
    (firstChunkBad bad = true →
      GlobFilter sys (pre ++ bad :: post) info fullPath = some .ErrSkip) := by
  simp only [GlobFilter, hwd, hrel]
  exact ⟨fun hbad => globLoop_malformed rel pre bad post hbad hpre,
    fun hbad => globLoop_malformed rel pre bad post
      (Match_error_of_firstChunkBad bad rel hbad) hpre⟩

/-- Witness of the amended C9: in the list `*.md`, `[`, `*.go` the malformed
pattern `[` stands behind `*.md`, which does not match `main.go`; the event is
skipped although the later pattern `*.go` would match. -/
theorem GlobFilter_malformed_witness :
    (demoSys.Getwd = .ok (str "/w") ∧
      demoSys.Rel (str "/w") (str "/w/main.go") = .ok (str "main.go") ∧
      firstChunkBad (str "[") = true ∧
      ∀ g ∈ [str "*.md"], Match g (str "main.go") ≠ some (.ok true)) ∧
    GlobFilter demoSys ([str "*.md"] ++ str "[" :: [str "*.go"]) demoInfo (str "/w/main.go")
      = some .ErrSkip :=
  ⟨⟨rfl, rfl, by decide, by
      intro g hg
      rw [List.mem_singleton.mp hg]
      intro h
      have h2 : Match (str "*.md") (str "main.go") = some (.ok false) := rfl
      rw [h2] at h
      simp at h⟩,
   (GlobFilter_malformed demoSys [str "*.md"] (str "[") [str "*.go"] demoInfo
      (str "/w/main.go") (str "/w") (str "main.go") rfl rfl (by
      intro g hg
      rw [List.mem_singleton.mp hg]
      intro h
      have h2 : Match (str "*.md") (str "main.go") = some (.ok false) := rfl
      rw [h2] at h
      simp at h)).2 (by decide)⟩

/-- Counterexample to C2 as stated: with the exclude patterns `.git/*` and
`*.tmp`, the event whose relative path is `build/out.tmp` is kept, not
skipped: `*` does not match across the separator. -/
theorem IgnoreFilter_example_counterexample :
    demoSys.Getwd = .ok (str "/w") ∧
    demoSys.Rel (str "/w") (str "/w/build/out.tmp") = .ok (str "build/out.tmp") ∧
    Match (str "*.tmp") (str "build/out.tmp") = some (.ok false) ∧
    IgnoreFilter demoSys [str ".git/*", str "*.tmp"] demoInfo (str "/w/build/out.tmp")
      = some .nil :=
  ⟨rfl, rfl, rfl, by decide⟩

/-- C2, amended. With the exclude patterns `.git/*` and `*.tmp`, `IgnoreFilter`
skips an event whose relative path is `.git/HEAD`, skips one whose relative
path is `out.tmp` (a `.tmp` file directly in the working directory), keeps one
whose relative path is `src/main.go`, and keeps one whose relative path is
`build/out.tmp`. -/
theorem IgnoreFilter_example (sys : Sys) (info : FileInfo) (fullPath curPath rel : GoString)
    (hwd : sys.Getwd = .ok curPath) (hrel : sys.Rel curPath fullPath = .ok rel) :
    (rel = str ".git/HEAD" →
      IgnoreFilter sys [str ".git/*", str "*.tmp"] info fullPath = some .ErrSkip) ∧
    (rel = str "out.tmp" →
      IgnoreFilter sys [str ".git/*", str "*.tmp"] info fullPath = some .ErrSkip) ∧
    (rel = str "src/main.go" →
      IgnoreFilter sys [str ".git/*", str "*.tmp"] info fullPath = some .nil) ∧
    (rel = str "build/out.tmp" →
      IgnoreFilter sys [str ".git/*", str "*.tmp"] info fullPath = some .nil) := by
  simp only [IgnoreFilter, hwd, hrel]
  refine ⟨?_, ?_, ?_, ?_⟩ <;> (rintro rfl; decide)

/-- Witness of the amended C2 on the path `/w/.git/HEAD`. -/
theorem IgnoreFilter_example_witness :
    (demoSys.Getwd = .ok (str "/w") ∧
      demoSys.Rel (str "/w") (str "/w/.git/HEAD") = .ok (str ".git/HEAD")) ∧
    IgnoreFilter demoSys [str ".git/*", str "*.tmp"] demoInfo (str "/w/.git/HEAD")
      = some .ErrSkip :=
  ⟨⟨rfl, rfl⟩,
   (IgnoreFilter_example demoSys demoInfo (str "/w/.git/HEAD") (str "/w") (str ".git/HEAD")
      rfl rfl).1 rfl⟩

/-! ## Command parsing -/

theorem Split_ne_nil (s : GoString) (sep : Nat) : Split s sep ≠ [] := by
  cases s with
  | nil => simp [Split]
  | cons c t =>
    simp only [Split]
    split_ifs <;> simp

theorem Split_join (s : GoString) (sep : Nat) :
    [sep].intercalate (Split s sep) = s ∧ ∀ t ∈ Split s sep, sep ∉ t := by
  induction s with
  | nil => simp [Split, List.intercalate]
  | cons c t ih =>
    obtain ⟨ih1, ih2⟩ := ih
    have hne := Split_ne_nil t sep
    rcases hs : Split t sep with _ | ⟨w, ws⟩
    · exact absurd hs hne
    · rw [hs] at ih1 ih2
      simp only [Split, hs]
      by_cases hc : c = sep
      · rw [if_pos hc]
        constructor
        · rw [← ih1, hc]
          simp [List.intercalate, List.intersperse]
        · intro x hx
          rcases List.mem_cons.mp hx with rfl | hx1
          · simp
          · exact ih2 x hx1
      · rw [if_neg hc]
        constructor
        · rw [← ih1]
          cases ws <;> simp [List.intercalate, List.intersperse]
        · intro x hx
          simp only [List.headD_cons, List.tail_cons] at hx
          rcases List.mem_cons.mp hx with rfl | hx1
          · intro hmem
            rcases List.mem_cons.mp hmem with h1 | h1
            · exact hc h1.symm
            · exact ih2 w (List.mem_cons_self _ _) h1
          · exact ih2 x (List.mem_cons_of_mem _ hx1)

theorem buildCommands_eq : ∀ (args : List GoString) (commands : List Cmd),
    buildCommands args commands = some (commands ++ args.map (fun command =>
      { name := (Split command 0x20).headD [], arg := (Split command 0x20).tail })) := by
  intro args
  induction args with
  | nil => intro commands; simp [buildCommands]
  | cons command args ih =>
    intro commands
    rcases hs : Split command 0x20 with _ | ⟨name, arg⟩
    · exact absurd hs (Split_ne_nil _ _)
    · simp only [buildCommands, hs, ih, List.map_cons, List.headD_cons, List.tail_cons,
        List.append_assoc, List.singleton_append]

/-- Counterexample to C6 as stated: the command line `go`, tab, `build` is not
split at the tab, and the command line with two spaces between `go` and
`build` gets an empty first argument; the whitespace-delimited tokens are
`go`, `build` in both cases. -/
theorem commandSplit_counterexample :
    buildCommands [str "go\tbuild"] [] = some [{ name := str "go\tbuild", arg := [] }] ∧
    whitespaceTokens (str "go\tbuild") = [str "go", str "build"] ∧
    buildCommands [str "go  build"] [] = some [{ name := str "go", arg := [[], str "build"] }] ∧
    whitespaceTokens (str "go  build") = [str "go", str "build"] :=
  ⟨by decide, by decide, by decide, by decide⟩

/-- C6, amended. Command-line splitting: every positional command string is cut
at each single space byte (U+0020) and nowhere else: the executable is the
piece before the first space, the arguments are the following pieces in order
(a piece is empty where two spaces meet or the string begins or ends with a
space), no piece contains a space, and the pieces joined by single spaces give
back the command string; `go build ./...` yields the executable `go` and the
arguments `build`, `./...`. -/
theorem commandSplit (command : GoString) :
    ∃ name arg, buildCommands [command] [] = some [{ name := name, arg := arg }] ∧
      [0x20].intercalate (name :: arg) = command ∧
      (∀ t ∈ name :: arg, 0x20 ∉ t) ∧
      buildCommands [str "go build ./..."] []
        = some [{ name := str "go", arg := [str "build", str "./..."] }] := by
  obtain ⟨h1, h2⟩ := Split_join command 0x20
  rcases hs : Split command 0x20 with _ | ⟨name, arg⟩
  · exact absurd hs (Split_ne_nil _ _)
  · rw [hs] at h1 h2
    exact ⟨name, arg, by simp [buildCommands, hs], h1, h2, by decide⟩

/-- C10. Command parsing never fails on indexing: splitting any command string
(the empty one and those made of spaces included) at the space byte gives a
non-empty list, so `all[0]` and `all[1:]` are defined; the loop ends without a
panic, with as many commands as positional arguments, the i-th command made of
the first piece and the remaining pieces of the i-th argument. -/
theorem buildCommands_total (args : List GoString) :
    (∀ command : GoString, 0 < (Split command 0x20).length) ∧
    Split [] 0x20 = [[]] ∧
    Split (str "  ") 0x20 = [[], [], []] ∧
    ∃ commands, buildCommands args [] = some commands ∧
      commands.length = args.length ∧
      commands = args.map (fun command =>
        { name := (Split command 0x20).headD [], arg := (Split command 0x20).tail }) := by
  refine ⟨fun command => List.length_pos.mpr (Split_ne_nil _ _), rfl, by decide, _,
    buildCommands_eq args [], ?_, ?_⟩
  · simp
  · simp

/-! ## The command runner -/

theorem runLoop_all_ok : ∀ (commands : List (Cmd × Outcome)) (log : RunLog),
    (∀ p ∈ commands, p.2.failed = false) →
    runLoop commands log =
      { stdout := log.stdout ++ commands.flatMap (fun p => p.2.out),
        started := log.started ++ commands.map Prod.fst } := by
  intro commands
  induction commands with
  | nil => intro log _; simp [runLoop]
  | cons p commands ih =>
    intro log h
    obtain ⟨command, o⟩ := p
    have ho : o.failed = false := h (command, o) (List.mem_cons_self _ _)
    simp only [runLoop, ho]
    rw [ih _ (fun q hq => h q (List.mem_cons_of_mem _ hq))]
    simp

theorem runLoop_first_failure : ∀ (pre : List (Cmd × Outcome)) (c : Cmd × Outcome)
    (post : List (Cmd × Outcome)) (log : RunLog),
    (∀ p ∈ pre, p.2.failed = false) → c.2.failed = true →
    runLoop (pre ++ c :: post) log =
      { stdout := log.stdout ++ (pre ++ [c]).flatMap (fun p => p.2.out),
        started := log.started ++ (pre ++ [c]).map Prod.fst } := by
  intro pre
  induction pre with
  | nil =>
    intro c post log _ hc
    obtain ⟨command, o⟩ := c
    simp only at hc
    simp [runLoop, hc]
  | cons p pre ih =>
    intro c post log h hc
    obtain ⟨command, o⟩ := p
    have ho : o.failed = false := h (command, o) (List.mem_cons_self _ _)
    have hcons : (command, o) :: pre ++ c :: post = (command, o) :: (pre ++ c :: post) := rfl
    rw [hcons]
    simp only [runLoop, ho]
    rw [if_neg (by simp), ih c post _ (fun q hq => h q (List.mem_cons_of_mem _ hq)) hc]
    simp

/-- C3. Fail-fast sequencing: whatever the configured commands and their
outcomes, one trigger runs exactly the commands up to and including the first
one that fails, in list order (all of them when none fails), starts no command
after it, and prints the outputs of exactly those commands, in order; for
`[A, B, C]` with `A` failing only `A` is run and only its output printed. -/
theorem runCommands_failFast (commands : List (Cmd × Outcome)) :
    ((∀ p ∈ commands, p.2.failed = false) →
      (runCommands commands).started = commands.map Prod.fst ∧
      (runCommands commands).stdout = commands.flatMap (fun p => p.2.out)) ∧
    (∀ (pre : List (Cmd × Outcome)) (c : Cmd × Outcome) (post : List (Cmd × Outcome)),
      commands = pre ++ c :: post → (∀ p ∈ pre, p.2.failed = false) → c.2.failed = true →
      (runCommands commands).started = (pre ++ [c]).map Prod.fst ∧
      (runCommands commands).stdout = (pre ++ [c]).flatMap (fun p => p.2.out)) ∧
    (∀ (A B C : Cmd) (a b c : Outcome), a.failed = true →
      runCommands [(A, a), (B, b), (C, c)] = { stdout := a.out, started := [A] }) := by
  refine ⟨?_, ?_, ?_⟩
  · intro h
    simp [runCommands, runLoop_all_ok commands _ h]
  · intro pre c post hc hpre hfail
    subst hc
    simp only [runCommands, runLoop_first_failure pre c post _ hpre hfail]
    simp
  · intro A B C a b c ha
    simp [runCommands, runLoop, ha]

/-- Witness of C3: of the commands `make`, `test`, `deploy`, where `make`
succeeds and `test` fails, exactly `make` and `test` are run and their outputs
printed in that order. -/
theorem runCommands_failFast_witness :
    (runCommands
        [({ name := str "make", arg := [] }, { out := str "ok", failed := false }),
         ({ name := str "test", arg := [] }, { out := str "FAIL", failed := true }),
         ({ name := str "deploy", arg := [] }, { out := str "done", failed := false })]).started
      = [{ name := str "make", arg := [] }, { name := str "test", arg := [] }] ∧
    (runCommands
        [({ name := str "make", arg := [] }, { out := str "ok", failed := false }),
         ({ name := str "test", arg := [] }, { out := str "FAIL", failed := true }),
         ({ name := str "deploy", arg := [] }, { out := str "done", failed := false })]).stdout
      = str "okFAIL" :=
  (runCommands_failFast
    [({ name := str "make", arg := [] }, { out := str "ok", failed := false }),
     ({ name := str "test", arg := [] }, { out := str "FAIL", failed := true }),
     ({ name := str "deploy", arg := [] }, { out := str "done", failed := false })]).2.1
    [({ name := str "make", arg := [] }, { out := str "ok", failed := false })]
    ({ name := str "test", arg := [] }, { out := str "FAIL", failed := true })
    [({ name := str "deploy", arg := [] }, { out := str "done", failed := false })]
    rfl (by decide) rfl

/-! ## The drain listener -/

theorem listener_events (M : Nat) : ∀ (hasEvent : Bool),
    listener hasEvent (List.replicate M Signal.event ++ [Signal.done])
      = .finished (if hasEvent = true ∨ 1 ≤ M then [Event.mk] else []) := by
  induction M with
  | zero => intro hasEvent; cases hasEvent <;> rfl
  | succ M ih =>
    intro hasEvent
    have hcons : List.replicate (M + 1) Signal.event ++ [Signal.done]
        = Signal.event :: (List.replicate M Signal.event ++ [Signal.done]) := rfl
    rw [hcons]
    simp only [listener]
    rw [ih true]
    simp

/-- C4. Coalescing: a drain listener that receives `M` events from the event
channel and then the completion signal of its run, with no cancellation, sends
exactly one synthetic event when `M` is at least 1 and none when `M` is 0; so it
never sends more than one, however large `M` is, and it sends one as soon as one
event arrived during the run. -/
theorem listener_coalesces (M : Nat) :
    listener false (List.replicate M Signal.event ++ [Signal.done])
      = .finished (if 1 ≤ M then [Event.mk] else []) ∧
    (∃ sent, listener false (List.replicate M Signal.event ++ [Signal.done]) = .finished sent ∧
      sent.length ≤ 1 ∧ (1 ≤ M → sent.length = 1) ∧ (M = 0 → sent.length = 0)) := by
  have h := listener_events M false
  simp only [Bool.false_eq_true, false_or] at h
  refine ⟨h, _, h, ?_, ?_, ?_⟩
  · split_ifs <;> simp
  · intro hM; simp [hM]
  · intro hM; simp [hM]

/-! ## The orchestrator -/

theorem Step_preserves_Inv (commands : List Cmd) (w w1 : World)
    (hs : Step commands w w1) (hi : w.Inv) : w1.Inv := by
  cases hs with
  | trigger h =>
    simp only [World.Inv, h] at hi
    simp only [World.Inv, World.begin]
    omega
  | retrigger i l h hi1 hl =>
    simp only [World.Inv, h] at hi
    simp only [World.Inv, World.begin]
    omega
  | drain i l hi1 hl => exact hi
  | drainSynthetic i j l k hij hi1 hl hj hk => exact hi
  | cmdStart d c todo h =>
    simp only [World.Inv, h] at hi
    simpa only [World.Inv] using hi
  | cmdOk d c todo h =>
    simp only [World.Inv, h] at hi
    simpa only [World.Inv] using hi
  | cmdFail d c todo h =>
    simp only [World.Inv, h] at hi
    simp only [World.Inv]
    omega
  | loopEnd d h =>
    simp only [World.Inv, h] at hi
    simp only [World.Inv]
    omega
  | deliver d i l h hi1 hd hl =>
    simp only [World.Inv, h] at hi
    simp only [World.Inv]
    omega
  | cancel => exact hi
  | listenerReturn i l hc hi1 hl => exact hi

theorem Reachable_Inv (commands : List Cmd) (w : World) (h : Reachable commands w) :
    w.Inv := by
  induction h with
  | init => simp [World.Inv, World.init]
  | step w w1 _ hs ih => exact Step_preserves_Inv commands w w1 hs ih

/-- C5. No concurrent runs: in every reachable state of the orchestrator the
number of command sequences executing is 0 or 1 (counted up to the return of
the command loop, and also counted up to the delivery of the completion
signal), none is executing while the orchestrator waits for an event, and a
step that begins a new command sequence is only taken when every sequence begun
before has left its command loop and had its completion signal delivered. -/
theorem no_concurrent_runs (commands : List Cmd) (w : World) (h : Reachable commands w) :
    (w.activeRuns = 0 ∨ w.activeRuns = 1) ∧
    (w.started - w.returned = 0 ∨ w.started - w.returned = 1) ∧
    (w.pc = .selecting → w.activeRuns = 0) ∧
    ∀ w1, Step commands w w1 → w1.started = w.started + 1 →
      w.returned = w.started ∧ w.delivered = w.started := by
  have hinv := Reachable_Inv commands w h
  refine ⟨?_, ?_, ?_, ?_⟩
  · unfold World.Inv at hinv
    unfold World.activeRuns
    split at hinv <;> omega
  · unfold World.Inv at hinv
    split at hinv <;> omega
  · intro hpc
    simp only [World.Inv, hpc] at hinv
    unfold World.activeRuns
    omega
  · intro w1 hs hstart
    cases hs with
    | trigger h1 => simpa only [World.Inv, h1] using hinv
    | retrigger i l h1 hi1 hl => simpa only [World.Inv, h1] using hinv
    | drain i l hi1 hl => simp at hstart
    | drainSynthetic i j l k hij hi1 hl hj hk => simp at hstart
    | cmdStart d c todo h1 => simp at hstart
    | cmdOk d c todo h1 => simp at hstart
    | cmdFail d c todo h1 => simp at hstart
    | loopEnd d h1 => simp at hstart
    | deliver d i l h1 hi1 hd hl => simp at hstart
    | cancel => simp at hstart
    | listenerReturn i l hc hi1 hl => simp at hstart

/-- Witness of C5: the state in which the first event was received and the
first sequence is in its command loop is reachable, and one sequence is
executing there. -/
theorem no_concurrent_runs_witness :
    Reachable [{ name := str "go", arg := [str "build"] }]
      (World.init.begin [{ name := str "go", arg := [str "build"] }] []) ∧
    ((World.init.begin [{ name := str "go", arg := [str "build"] }] []).activeRuns = 0 ∨
      (World.init.begin [{ name := str "go", arg := [str "build"] }] []).activeRuns = 1) :=
  ⟨Reachable.step _ _ Reachable.init (Step.trigger World.init rfl),
   (no_concurrent_runs [{ name := str "go", arg := [str "build"] }] _
      (Reachable.step _ _ Reachable.init (Step.trigger World.init rfl))).1⟩

end Ptcwatcher
